import Mathlib

/-!
Verification of the price-series transformation pipeline of NSE-TradeHub-Pro.

The development shallowly embeds the client-side charting and indicator
computations (Series Normalizer, Renko brick builder, Point-and-Figure column
builder, Volume Profile, VWAP, RSI / SMA / EMA / MACD engine) as executable
Lean functions over rational numbers, translated line by line from the
TypeScript source, and proves or refutes the specification's claims about
them.  JavaScript numbers are modelled by ℚ; the one place where IEEE
semantics diverge from exact arithmetic on reachable inputs (the NaN bin
index produced by a zero bin width in the volume profile) is modelled
explicitly with Option.
-/

set_option maxHeartbeats 1000000

namespace TradeHub

/-- One OHLCV observation, as consumed by the chart components.  The
`date` field is the timestamp in epoch milliseconds obtained from
`new Date(item.date).getTime()`; prices and volume are JS numbers,
modelled as rationals. -/
structure PriceBar where
  date : ℤ
  open_ : ℚ
  high : ℚ
  low : ℚ
  close : ℚ
  volume : ℚ
deriving DecidableEq, Repr

/-- Comparator used by `sortAndDeduplicateData`: ascending by parsed
timestamp, from `(a, b) => new Date(a.date).getTime() - new Date(b.date).getTime()`. -/
def dateLe (a b : PriceBar) : Prop := a.date ≤ b.date

instance : DecidableRel dateLe := fun a b => inferInstanceAs (Decidable (a.date ≤ b.date))

instance : IsTotal PriceBar dateLe := ⟨fun a b => Int.le_total a.date b.date⟩

instance : IsTrans PriceBar dateLe := ⟨fun _ _ _ h1 h2 => le_trans h1 h2⟩

/-- JS `Map.set` semantics on an insertion-ordered association list: an
existing key keeps its position and gets the new value, a fresh key is
appended at the end. -/
def mapSet (m : List (ℤ × PriceBar)) (k : ℤ) (v : PriceBar) : List (ℤ × PriceBar) :=
  match m with
  | [] => [(k, v)]
  | (k0, v0) :: rest => if k0 = k then (k0, v) :: rest else (k0, v0) :: mapSet rest k v

/-- The dedup phase of `sortAndDeduplicateData`: insert every bar into a JS
Map keyed by timestamp (last write wins) and read the values back in key
insertion order. -/
def dedupLast (l : List PriceBar) : List PriceBar :=
  (l.foldl (fun m item => mapSet m item.date item) []).map Prod.snd

/-- Embedding of `sortAndDeduplicateData` (RenkoChart.tsx, HeikinAshiChart):
stable sort ascending by timestamp (JS `Array.prototype.sort` is stable,
modelled by insertion sort), then deduplicate by timestamp keeping the
last entry of the sorted order. -/
def sortAndDeduplicateData (priceData : List PriceBar) : List PriceBar :=
  dedupLast (List.insertionSort dateLe priceData)

lemma mapSet_of_not_mem (k : ℤ) (v : PriceBar) :
    ∀ (m : List (ℤ × PriceBar)), k ∉ m.map Prod.fst → mapSet m k v = m ++ [(k, v)]
  | [], _ => rfl
  | (k0, v0) :: rest, h => by
    have hk : k0 ≠ k := by
      intro he
      exact h (by simp [he])
    have hrest : k ∉ rest.map Prod.fst := by
      intro hm
      exact h (by simp [hm])
    simp [mapSet, hk, mapSet_of_not_mem k v rest hrest]

lemma dedupFold_of_nodup :
    ∀ (l : List PriceBar) (acc : List (ℤ × PriceBar)),
      (acc.map Prod.fst ++ l.map PriceBar.date).Nodup →
      l.foldl (fun m item => mapSet m item.date item) acc
        = acc ++ l.map (fun x => (x.date, x))
  | [], acc, _ => by simp
  | x :: xs, acc, h => by
    have hx : x.date ∉ acc.map Prod.fst := by
      have hd := List.disjoint_of_nodup_append h
      intro hm
      exact hd hm (by simp)
    have hstep : mapSet acc x.date x = acc ++ [(x.date, x)] :=
      mapSet_of_not_mem x.date x acc hx
    have hnd : ((acc ++ [(x.date, x)]).map Prod.fst ++ xs.map PriceBar.date).Nodup := by
      have : (acc ++ [(x.date, x)]).map Prod.fst ++ xs.map PriceBar.date
          = acc.map Prod.fst ++ (x :: xs).map PriceBar.date := by
        simp
      rw [this]
      exact h
    calc (x :: xs).foldl (fun m item => mapSet m item.date item) acc
        = xs.foldl (fun m item => mapSet m item.date item) (acc ++ [(x.date, x)]) := by
          simp [List.foldl_cons, hstep]
      _ = (acc ++ [(x.date, x)]) ++ xs.map (fun x => (x.date, x)) :=
          dedupFold_of_nodup xs (acc ++ [(x.date, x)]) hnd
      _ = acc ++ (x :: xs).map (fun x => (x.date, x)) := by
          simp

lemma dedupLast_of_nodup (l : List PriceBar) (h : (l.map PriceBar.date).Nodup) :
    dedupLast l = l := by
  unfold dedupLast
  rw [dedupFold_of_nodup l [] (by simpa using h)]
  simp [Function.comp_def]

/-- Strictly increasing timestamps make the normalizer the identity. -/
lemma sortAndDeduplicateData_of_strict (l : List PriceBar)
    (h : (l.map PriceBar.date).Chain' (· < ·)) :
    sortAndDeduplicateData l = l := by
  have hpw : (l.map PriceBar.date).Pairwise (· < ·) :=
    List.chain'_iff_pairwise.mp h
  have hpwl : l.Pairwise (fun a b => a.date < b.date) := List.pairwise_map.mp hpw
  have hsorted : List.Sorted dateLe l := hpwl.imp (fun hab => le_of_lt hab)
  have hnd : (l.map PriceBar.date).Nodup := hpw.imp (fun hab => ne_of_lt hab)
  unfold sortAndDeduplicateData
  rw [List.Sorted.insertionSort_eq hsorted]
  exact dedupLast_of_nodup l hnd

/-- C4 counterexample: the two inputs are permutations of the same multiset of
bars (two bars sharing timestamp 0), yet the Series Normalizer returns
different outputs — after the stable sort, "last entry wins" keeps whichever
duplicate came later in the input order, so the function is not
order-independent. -/
theorem sortAndDeduplicate_not_order_independent :
    ([⟨0, 1, 1, 1, 1, 0⟩, ⟨0, 2, 2, 2, 2, 0⟩] : List PriceBar).Perm
      [⟨0, 2, 2, 2, 2, 0⟩, ⟨0, 1, 1, 1, 1, 0⟩] ∧
    sortAndDeduplicateData [⟨0, 1, 1, 1, 1, 0⟩, ⟨0, 2, 2, 2, 2, 0⟩]
      ≠ sortAndDeduplicateData [⟨0, 2, 2, 2, 2, 0⟩, ⟨0, 1, 1, 1, 1, 0⟩] :=
  ⟨List.Perm.swap _ _ _, by decide⟩

/-- C4 (amended): the Series Normalizer is order-independent on bar sets with
pairwise distinct timestamps — any two permutations of such a set normalize to
the same output.  (With duplicate timestamps the output depends on the input
order, see the counterexample.) -/
theorem sortAndDeduplicate_perm_invariant_of_nodup (l1 l2 : List PriceBar)
    (hp : l1.Perm l2) (hnd : (l1.map PriceBar.date).Nodup) :
    sortAndDeduplicateData l1 = sortAndDeduplicateData l2 := by
  unfold sortAndDeduplicateData
  suffices h : List.insertionSort dateLe l1 = List.insertionSort dateLe l2 by rw [h]
  have hperm : (List.insertionSort dateLe l1).Perm (List.insertionSort dateLe l2) :=
    ((List.perm_insertionSort dateLe l1).trans hp).trans
      (List.perm_insertionSort dateLe l2).symm
  have hstrict : ∀ (l : List PriceBar), (l.map PriceBar.date).Nodup →
      (List.insertionSort dateLe l).Pairwise (fun a b => a.date < b.date) := by
    intro l hl
    have hs : List.Sorted dateLe (List.insertionSort dateLe l) :=
      List.sorted_insertionSort dateLe l
    have hnds : ((List.insertionSort dateLe l).map PriceBar.date).Nodup :=
      (((List.perm_insertionSort dateLe l).map PriceBar.date).nodup_iff).mpr hl
    have hne : (List.insertionSort dateLe l).Pairwise (fun a b => a.date ≠ b.date) :=
      List.pairwise_map.mp hnds
    exact (hs.and hne).imp (fun hab => lt_of_le_of_ne hab.1 hab.2)
  have hnd2 : (l2.map PriceBar.date).Nodup := ((hp.map PriceBar.date).nodup_iff).mp hnd
  haveI : IsAntisymm PriceBar (fun a b => a.date < b.date) :=
    ⟨fun a b h1 h2 => absurd (lt_trans h1 h2) (lt_irrefl _)⟩
  exact List.eq_of_perm_of_sorted hperm (hstrict l1 hnd) (hstrict l2 hnd2)

/-- C4 witness: the amended theorem applied to two concrete permutations of a
duplicate-free bar set. -/
theorem sortAndDeduplicate_perm_invariant_of_nodup_witness :
    sortAndDeduplicateData [⟨0, 1, 1, 1, 1, 0⟩, ⟨5, 2, 2, 2, 2, 0⟩]
      = sortAndDeduplicateData [⟨5, 2, 2, 2, 2, 0⟩, ⟨0, 1, 1, 1, 1, 0⟩] :=
  sortAndDeduplicate_perm_invariant_of_nodup _ _ (List.Perm.swap _ _ _) (by decide)

/-- One synthetic Renko brick (CandlestickData pushed by `calculateRenkoBricks`);
`time` is the synthetic sequence clock `brickTime + j` in epoch seconds. -/
structure Brick where
  time : ℚ
  open_ : ℚ
  high : ℚ
  low : ℚ
  close : ℚ
deriving DecidableEq, Repr

/-- Mutable loop state of `calculateRenkoBricks`: the accumulated bricks and
the running `currentBrickPrice` / `brickTime` variables. -/
structure RenkoState where
  bricks : List Brick
  currentBrickPrice : ℚ
  brickTime : ℚ
deriving DecidableEq, Repr

/-- The inner `for (let j = 0; j < numBricks; j++)` loop of
`calculateRenkoBricks`: emits `n` unit bricks starting at `cur`, each one
advancing `currentBrickPrice` by `direction * brickSize`; returns the bricks
and the final `currentBrickPrice`. -/
def renkoEmit (brickSize direction : ℚ) : ℕ → ℚ → ℚ → List Brick × ℚ
  | 0, cur, _ => ([], cur)
  | n + 1, cur, t =>
    let brickClose := cur + direction * brickSize
    let rest := renkoEmit brickSize direction n brickClose (t + 1)
    (⟨t, cur, max cur brickClose, min cur brickClose, brickClose⟩ :: rest.1, rest.2)

/-- One iteration of the outer bar loop of `calculateRenkoBricks`:
`numBricks = Math.floor(|close - currentBrickPrice| / brickSize)` bricks are
emitted in the direction of the price delta. -/
def renkoStep (brickSize : ℚ) (st : RenkoState) (bar : PriceBar) : RenkoState :=
  let priceDiff := bar.close - st.currentBrickPrice
  let numBricks : ℤ := Int.floor (|priceDiff| / brickSize)
  if 0 < numBricks then
    let direction : ℚ := if 0 < priceDiff then 1 else -1
    let emitted := renkoEmit brickSize direction numBricks.toNat
      st.currentBrickPrice st.brickTime
    { bricks := st.bricks ++ emitted.1
      currentBrickPrice := emitted.2
      brickTime := st.brickTime + (numBricks : ℚ) }
  else st

/-- Embedding of `calculateRenkoBricks` (RenkoChart.tsx): normalize the bars,
seed `currentBrickPrice = Math.floor(firstClose / brickSize) * brickSize`, then
run the bar loop. -/
def calculateRenkoBricks (priceData : List PriceBar) (brickSize : ℚ) : List Brick :=
  if priceData.isEmpty then [] else
  match sortAndDeduplicateData priceData with
  | [] => []
  | b0 :: rest =>
    let start := (Int.floor (b0.close / brickSize) : ℚ) * brickSize
    ((b0 :: rest).foldl (renkoStep brickSize)
      { bricks := [], currentBrickPrice := start,
        brickTime := (b0.date : ℚ) / 1000 }).bricks

lemma renkoEmit_length (b d : ℚ) :
    ∀ (n : ℕ) (cur t : ℚ), (renkoEmit b d n cur t).1.length = n
  | 0, _, _ => rfl
  | n + 1, cur, t => by
    simp [renkoEmit, renkoEmit_length b d n]

lemma renkoEmit_snd (b d : ℚ) :
    ∀ (n : ℕ) (cur t : ℚ), (renkoEmit b d n cur t).2 = cur + d * b * n
  | 0, cur, t => by simp [renkoEmit]
  | n + 1, cur, t => by
    rw [renkoEmit]
    show (renkoEmit b d n (cur + d * b) (t + 1)).2 = _
    rw [renkoEmit_snd b d n]
    push_cast
    ring

lemma renkoEmit_getElem (b d : ℚ) :
    ∀ (n : ℕ) (cur t : ℚ) (j : ℕ), j < n →
      (renkoEmit b d n cur t).1[j]? =
        some ⟨t + j, cur + d * b * j,
          max (cur + d * b * j) (cur + d * b * (j + 1)),
          min (cur + d * b * j) (cur + d * b * (j + 1)),
          cur + d * b * (j + 1)⟩
  | 0, _, _, j, hj => absurd hj (Nat.not_lt_zero j)
  | n + 1, cur, t, 0, _ => by
    simp only [renkoEmit, List.getElem?_cons_zero, Option.some.injEq, Brick.mk.injEq]
    refine ⟨by push_cast; ring, by push_cast; ring, ?_, ?_, by push_cast; ring⟩
    · congr 1 <;> push_cast <;> ring
    · congr 1 <;> push_cast <;> ring
  | n + 1, cur, t, j + 1, hj => by
    have ih := renkoEmit_getElem b d n (cur + d * b) (t + 1) j (Nat.lt_of_succ_lt_succ hj)
    rw [renkoEmit]
    simp only [List.getElem?_cons_succ]
    rw [ih]
    simp only [Option.some.injEq, Brick.mk.injEq]
    refine ⟨by push_cast; ring, by push_cast; ring, ?_, ?_, by push_cast; ring⟩
    · congr 1 <;> push_cast <;> ring
    · congr 1 <;> push_cast <;> ring

lemma renkoEmit_mem (b d : ℚ) (n : ℕ) (cur t : ℚ) {brk : Brick}
    (h : brk ∈ (renkoEmit b d n cur t).1) :
    brk.close - brk.open_ = d * b ∧ brk.high = max brk.open_ brk.close ∧
      brk.low = min brk.open_ brk.close := by
  obtain ⟨j, hj, hE⟩ := List.mem_iff_getElem.mp h
  have hj' : j < n := by
    rw [renkoEmit_length b d n cur t] at hj
    exact hj
  have hsome : (renkoEmit b d n cur t).1[j]? = some brk := by
    rw [List.getElem?_eq_getElem hj, hE]
  rw [renkoEmit_getElem b d n cur t j hj'] at hsome
  have hbrk := Option.some.inj hsome
  subst hbrk
  refine ⟨?_, rfl, rfl⟩
  show cur + d * b * ((j : ℚ) + 1) - (cur + d * b * (j : ℚ)) = d * b
  ring

lemma renkoEmit_chain (b d : ℚ) (n : ℕ) (cur t : ℚ) :
    List.Chain' (fun x y => y.open_ = x.close) (renkoEmit b d n cur t).1 := by
  rw [List.chain'_iff_get]
  intro i hi
  rw [renkoEmit_length b d n cur t] at hi
  have hi1 : i < n := by omega
  have hi2 : i + 1 < n := by omega
  have e1 := renkoEmit_getElem b d n cur t i hi1
  have e2 := renkoEmit_getElem b d n cur t (i + 1) hi2
  obtain ⟨hl1, hv1⟩ := List.getElem?_eq_some.mp e1
  obtain ⟨hl2, hv2⟩ := List.getElem?_eq_some.mp e2
  simp only [List.get_eq_getElem]
  rw [hv1, hv2]
  show cur + d * b * ((i + 1 : ℕ) : ℚ) = cur + d * b * ((i : ℚ) + 1)
  push_cast
  ring

lemma renkoStep_inv (b : ℚ) (hb : 0 < b) (st : RenkoState) (bar : PriceBar)
    (h1 : List.Chain' (fun x y => y.open_ = x.close) st.bricks)
    (h2 : ∀ brk ∈ st.bricks, |brk.close - brk.open_| = b ∧
      brk.high = max brk.open_ brk.close ∧ brk.low = min brk.open_ brk.close)
    (h3 : ∀ last ∈ st.bricks.getLast?, last.close = st.currentBrickPrice) :
    List.Chain' (fun x y => y.open_ = x.close) (renkoStep b st bar).bricks ∧
    (∀ brk ∈ (renkoStep b st bar).bricks, |brk.close - brk.open_| = b ∧
      brk.high = max brk.open_ brk.close ∧ brk.low = min brk.open_ brk.close) ∧
    (∀ last ∈ (renkoStep b st bar).bricks.getLast?,
      last.close = (renkoStep b st bar).currentBrickPrice) := by
  unfold renkoStep
  by_cases hn : 0 < Int.floor (|bar.close - st.currentBrickPrice| / b)
  · simp only [if_pos hn]
    set pd := bar.close - st.currentBrickPrice with hpd
    set d : ℚ := if 0 < pd then 1 else -1 with hdd
    have hd : d = 1 ∨ d = -1 := by
      rw [hdd]
      split <;> simp
    have hdb : |d * b| = b := by
      rcases hd with h | h <;> rw [h] <;> simp [abs_of_pos hb]
    set k := (Int.floor (|pd| / b)).toNat with hkk
    have hk : 0 < k := by omega
    set em := renkoEmit b d k st.currentBrickPrice st.brickTime with hem
    have hlen : em.1.length = k := renkoEmit_length b d k _ _
    have hne : em.1 ≠ [] := by
      intro h0
      rw [h0] at hlen
      simp at hlen
      omega
    have hhead : ∀ y ∈ em.1.head?, y.open_ = st.currentBrickPrice := by
      intro y hy
      have h0 : em.1.head? = em.1[0]? := by
        cases hl : em.1 <;> simp
      rw [h0, renkoEmit_getElem b d k _ _ 0 hk] at hy
      have := Option.mem_def.mp hy
      have hyv := Option.some.inj this
      rw [← hyv]
      show st.currentBrickPrice + d * b * ((0 : ℕ) : ℚ) = st.currentBrickPrice
      push_cast
      ring
    have hlast : ∀ x ∈ em.1.getLast?, x.close = em.2 := by
      intro x hx
      rw [List.getLast?_eq_getElem?, hlen] at hx
      have hk1 : k - 1 < k := by omega
      rw [renkoEmit_getElem b d k _ _ (k - 1) hk1] at hx
      have hxv := Option.some.inj (Option.mem_def.mp hx)
      rw [← hxv, renkoEmit_snd]
      show st.currentBrickPrice + d * b * (((k - 1 : ℕ) : ℚ) + 1)
        = st.currentBrickPrice + d * b * (k : ℚ)
      rw [Nat.cast_sub (by omega : 1 ≤ k)]
      ring
    refine ⟨?_, ?_, ?_⟩
    · exact List.chain'_append.mpr ⟨h1, renkoEmit_chain b d k _ _,
        fun x hx y hy => (hhead y hy).trans (h3 x hx).symm⟩
    · intro brk hbrk
      rcases List.mem_append.mp hbrk with hm | hm
      · exact h2 brk hm
      · obtain ⟨hc, hh, hl⟩ := renkoEmit_mem b d k _ _ hm
        exact ⟨by rw [hc]; exact hdb, hh, hl⟩
    · intro x hx
      rw [List.getLast?_append_of_ne_nil _ hne] at hx
      exact hlast x hx
  · simp only [if_neg hn]
    exact ⟨h1, h2, h3⟩

lemma renko_fold_inv (b : ℚ) (hb : 0 < b) :
    ∀ (bars : List PriceBar) (st : RenkoState),
      List.Chain' (fun x y => y.open_ = x.close) st.bricks →
      (∀ brk ∈ st.bricks, |brk.close - brk.open_| = b ∧
        brk.high = max brk.open_ brk.close ∧ brk.low = min brk.open_ brk.close) →
      (∀ last ∈ st.bricks.getLast?, last.close = st.currentBrickPrice) →
      List.Chain' (fun x y => y.open_ = x.close) (bars.foldl (renkoStep b) st).bricks ∧
      (∀ brk ∈ (bars.foldl (renkoStep b) st).bricks, |brk.close - brk.open_| = b ∧
        brk.high = max brk.open_ brk.close ∧ brk.low = min brk.open_ brk.close) ∧
      (∀ last ∈ (bars.foldl (renkoStep b) st).bricks.getLast?,
        last.close = (bars.foldl (renkoStep b) st).currentBrickPrice)
  | [], st, h1, h2, h3 => ⟨h1, h2, h3⟩
  | bar :: bars, st, h1, h2, h3 => by
    obtain ⟨g1, g2, g3⟩ := renkoStep_inv b hb st bar h1 h2 h3
    exact renko_fold_inv b hb bars (renkoStep b st bar) g1 g2 g3

/-- C9: for every input series and every brickSize > 0, the Renko output is
uniform and chained — each brick spans exactly one brickSize
(`|close - open| = brickSize`, `high = max(open, close)`,
`low = min(open, close)`) and each brick opens at the previous brick's
close. -/
theorem renko_bricks_uniform_chained (l : List PriceBar) (b : ℚ) (hb : 0 < b) :
    (∀ brk ∈ calculateRenkoBricks l b, |brk.close - brk.open_| = b ∧
      brk.high = max brk.open_ brk.close ∧ brk.low = min brk.open_ brk.close) ∧
    List.Chain' (fun x y => y.open_ = x.close) (calculateRenkoBricks l b) := by
  unfold calculateRenkoBricks
  by_cases he : l.isEmpty
  · simp [he]
  simp only [if_neg he]
  cases hc : sortAndDeduplicateData l with
  | nil => simp
  | cons b0 rest =>
    obtain ⟨g1, g2, g3⟩ := renko_fold_inv b hb (b0 :: rest)
      { bricks := [], currentBrickPrice := (Int.floor (b0.close / b) : ℚ) * b,
        brickTime := (b0.date : ℚ) / 1000 }
      (by simp) (by simp) (by simp)
    exact ⟨g2, g1⟩

/-- C9 witness: the chaining/uniformity theorem evaluated on a concrete
five-bar series with brickSize 10. -/
theorem renko_bricks_uniform_chained_witness :
    (∀ brk ∈ calculateRenkoBricks
        [⟨0, 100, 100, 100, 100, 1⟩, ⟨1, 105, 105, 105, 105, 1⟩,
         ⟨2, 112, 112, 112, 112, 1⟩, ⟨3, 108, 108, 108, 108, 1⟩,
         ⟨4, 120, 120, 120, 120, 1⟩] 10,
      |brk.close - brk.open_| = 10 ∧
      brk.high = max brk.open_ brk.close ∧ brk.low = min brk.open_ brk.close) ∧
    List.Chain' (fun x y => y.open_ = x.close) (calculateRenkoBricks
        [⟨0, 100, 100, 100, 100, 1⟩, ⟨1, 105, 105, 105, 105, 1⟩,
         ⟨2, 112, 112, 112, 112, 1⟩, ⟨3, 108, 108, 108, 108, 1⟩,
         ⟨4, 120, 120, 120, 120, 1⟩] 10) :=
  renko_bricks_uniform_chained _ 10 (by norm_num)

lemma getLastD_irrel {α : Type} (a : α) (l : List α) (d1 d2 : α) :
    (a :: l).getLastD d1 = (a :: l).getLastD d2 := by
  simp [List.getLastD_eq_getLast?, List.getLast?_cons]

lemma renkoStep_mono (b start : ℚ) (hb : 0 < b) (st : RenkoState) (bar : PriceBar)
    (prev : ℚ)
    (hcur : st.currentBrickPrice = start + b * st.bricks.length)
    (hle : st.currentBrickPrice ≤ prev)
    (hprev : prev ≤ bar.close)
    (hopens : ∀ j (hj : j < st.bricks.length),
      (st.bricks.get ⟨j, hj⟩).open_ = start + b * j ∧
      (st.bricks.get ⟨j, hj⟩).close = start + b * (j + 1)) :
    (renkoStep b st bar).currentBrickPrice
        = start + b * (renkoStep b st bar).bricks.length ∧
    (renkoStep b st bar).currentBrickPrice ≤ bar.close ∧
    bar.close - (renkoStep b st bar).currentBrickPrice < b ∧
    (∀ j (hj : j < (renkoStep b st bar).bricks.length),
      ((renkoStep b st bar).bricks.get ⟨j, hj⟩).open_ = start + b * j ∧
      ((renkoStep b st bar).bricks.get ⟨j, hj⟩).close = start + b * (j + 1)) := by
  have hdiff : 0 ≤ bar.close - st.currentBrickPrice := by linarith
  have habs : |bar.close - st.currentBrickPrice| = bar.close - st.currentBrickPrice :=
    abs_of_nonneg hdiff
  by_cases hn : 0 < Int.floor ((bar.close - st.currentBrickPrice) / b)
  · -- at least one brick is emitted, necessarily upward
    have hd1 : 0 < bar.close - st.currentBrickPrice := by
      have h1 : (1 : ℚ) ≤ (bar.close - st.currentBrickPrice) / b := by
        calc (1 : ℚ) = ((1 : ℤ) : ℚ) := by norm_num
          _ ≤ ((Int.floor ((bar.close - st.currentBrickPrice) / b) : ℤ) : ℚ) := by
              exact_mod_cast hn
          _ ≤ (bar.close - st.currentBrickPrice) / b := Int.floor_le _
      have hbd : b ≤ bar.close - st.currentBrickPrice := (one_le_div hb).mp h1
      linarith
    have heq : renkoStep b st bar =
        { bricks := st.bricks ++ (renkoEmit b 1
            (Int.floor ((bar.close - st.currentBrickPrice) / b)).toNat
            st.currentBrickPrice st.brickTime).1,
          currentBrickPrice := (renkoEmit b 1
            (Int.floor ((bar.close - st.currentBrickPrice) / b)).toNat
            st.currentBrickPrice st.brickTime).2,
          brickTime := st.brickTime
            + ((Int.floor ((bar.close - st.currentBrickPrice) / b) : ℤ) : ℚ) } := by
      unfold renkoStep
      simp only [habs, if_pos hn, if_pos hd1]
    set k : ℤ := Int.floor ((bar.close - st.currentBrickPrice) / b) with hkd
    have hkn : ((k.toNat : ℕ) : ℚ) = (k : ℚ) := by
      exact_mod_cast Int.toNat_of_nonneg (le_of_lt hn)
    have hsnd := renkoEmit_snd b 1 k.toNat st.currentBrickPrice st.brickTime
    have hlen := renkoEmit_length b 1 k.toNat st.currentBrickPrice st.brickTime
    have hfl : b * (k : ℚ) ≤ bar.close - st.currentBrickPrice := by
      rw [mul_comm]
      exact (le_div_iff₀ hb).mp (Int.floor_le _)
    have hfu : bar.close - st.currentBrickPrice < b * ((k : ℚ) + 1) := by
      rw [mul_comm]
      exact (div_lt_iff₀ hb).mp (Int.lt_floor_add_one _)
    rw [heq]
    refine ⟨?_, ?_, ?_, ?_⟩
    · show (renkoEmit b 1 k.toNat st.currentBrickPrice st.brickTime).2
        = start + b * (st.bricks ++ (renkoEmit b 1 k.toNat
            st.currentBrickPrice st.brickTime).1).length
      rw [hsnd, List.length_append, hlen, hcur]
      push_cast [hkn]
      ring
    · show (renkoEmit b 1 k.toNat st.currentBrickPrice st.brickTime).2 ≤ bar.close
      rw [hsnd, hkn]
      linarith
    · show bar.close - (renkoEmit b 1 k.toNat st.currentBrickPrice st.brickTime).2 < b
      rw [hsnd, hkn]
      linarith
    · intro j hj
      simp only [List.length_append, hlen] at hj
      by_cases hjl : j < st.bricks.length
      · have hget : (st.bricks ++ (renkoEmit b 1 k.toNat
            st.currentBrickPrice st.brickTime).1).get
              ⟨j, by simp [List.length_append, hlen]; omega⟩
            = st.bricks.get ⟨j, hjl⟩ := by
          simp [List.get_eq_getElem, List.getElem_append_left, hjl]
        exact hget ▸ hopens j hjl
      · obtain ⟨j2, rfl⟩ : ∃ j2, j = st.bricks.length + j2 :=
          ⟨j - st.bricks.length, by omega⟩
        have hj2 : j2 < k.toNat := by omega
        obtain ⟨hlt, hv⟩ := List.getElem?_eq_some.mp
          (renkoEmit_getElem b 1 k.toNat st.currentBrickPrice st.brickTime j2 hj2)
        have hget : (st.bricks ++ (renkoEmit b 1 k.toNat
            st.currentBrickPrice st.brickTime).1).get
              ⟨st.bricks.length + j2, by simp [List.length_append, hlen]; omega⟩
            = (renkoEmit b 1 k.toNat st.currentBrickPrice st.brickTime).1.get ⟨j2, hlt⟩ := by
          simp [List.get_eq_getElem, List.getElem_append_right]
        rw [hget]
        simp only [List.get_eq_getElem]
        rw [hv]
        constructor
        · show st.currentBrickPrice + 1 * b * (j2 : ℚ)
            = start + b * ((st.bricks.length + j2 : ℕ) : ℚ)
          rw [hcur]
          push_cast
          ring
        · show st.currentBrickPrice + 1 * b * ((j2 : ℚ) + 1)
            = start + b * (((st.bricks.length + j2 : ℕ) : ℚ) + 1)
          rw [hcur]
          push_cast
          ring
  · -- no brick: the price has not moved a full brick above currentBrickPrice
    have heq : renkoStep b st bar = st := by
      unfold renkoStep
      simp only [habs, if_neg hn]
    rw [heq]
    push_neg at hn
    have h1 : (bar.close - st.currentBrickPrice) / b < 1 := by
      calc (bar.close - st.currentBrickPrice) / b
          < Int.floor ((bar.close - st.currentBrickPrice) / b) + 1 :=
            Int.lt_floor_add_one _
        _ ≤ 0 + 1 := by exact_mod_cast add_le_add_right hn 1
        _ = 1 := by norm_num
    have h2 : bar.close - st.currentBrickPrice < b := by
      have := (div_lt_one hb).mp h1
      linarith
    exact ⟨hcur, by linarith, h2, hopens⟩

lemma renko_fold_mono (b start : ℚ) (hb : 0 < b) :
    ∀ (bars : List PriceBar) (st : RenkoState) (prev : ℚ),
      List.Chain' (· ≤ ·) (prev :: bars.map PriceBar.close) →
      st.currentBrickPrice = start + b * st.bricks.length →
      st.currentBrickPrice ≤ prev →
      prev - st.currentBrickPrice < b →
      (∀ j (hj : j < st.bricks.length),
        (st.bricks.get ⟨j, hj⟩).open_ = start + b * j ∧
        (st.bricks.get ⟨j, hj⟩).close = start + b * (j + 1)) →
      (bars.foldl (renkoStep b) st).currentBrickPrice
          = start + b * (bars.foldl (renkoStep b) st).bricks.length ∧
      (bars.foldl (renkoStep b) st).currentBrickPrice
          ≤ (bars.map PriceBar.close).getLastD prev ∧
      (bars.map PriceBar.close).getLastD prev
          - (bars.foldl (renkoStep b) st).currentBrickPrice < b ∧
      (∀ j (hj : j < (bars.foldl (renkoStep b) st).bricks.length),
        ((bars.foldl (renkoStep b) st).bricks.get ⟨j, hj⟩).open_ = start + b * j ∧
        ((bars.foldl (renkoStep b) st).bricks.get ⟨j, hj⟩).close = start + b * (j + 1))
  | [], _, _, _, h1, h2, h3, h4 => ⟨h1, h2, h3, h4⟩
  | bar :: bars, st, prev, hchain, h1, h2, _, h4 => by
    rw [List.map_cons] at hchain
    have hpc : prev ≤ bar.close := (List.chain'_cons.mp hchain).1
    obtain ⟨g1, g2, g3, g4⟩ := renkoStep_mono b start hb st bar prev h1 h2 hpc h4
    have hrest := renko_fold_mono b start hb bars (renkoStep b st bar) bar.close
      (List.chain'_cons.mp hchain).2 g1 g2 g3 g4
    have hfold : (bar :: bars).foldl (renkoStep b) st
        = bars.foldl (renkoStep b) (renkoStep b st bar) := by
      simp [List.foldl_cons]
    rw [hfold, List.map_cons, List.getLastD_cons]
    exact hrest

/-- C6: on a monotonically non-decreasing close series (normalized: strictly
increasing timestamps), the Renko builder emits exactly
`floor((P1 - floor(P0/brickSize)*brickSize)/brickSize)` bricks, every brick is
an up-brick (`close = open + brickSize`), and brick `j` opens at
`flooredStart + j*brickSize` — the bricks appear in emission order. -/
theorem renko_monotone_brick_count (l : List PriceBar) (b : ℚ) (hb : 0 < b)
    (hne : l ≠ [])
    (hdates : (l.map PriceBar.date).Chain' (· < ·))
    (hmono : (l.map PriceBar.close).Chain' (· ≤ ·)) :
    (calculateRenkoBricks l b).length
        = (Int.floor (((l.map PriceBar.close).getLastD 0
            - (Int.floor ((l.map PriceBar.close).headD 0 / b) : ℚ) * b) / b)).toNat ∧
    ∀ (j : ℕ) (brk : Brick), (calculateRenkoBricks l b)[j]? = some brk →
      brk.close = brk.open_ + b ∧
      brk.open_ = (Int.floor ((l.map PriceBar.close).headD 0 / b) : ℚ) * b + b * j := by
  obtain ⟨b0, rest, rfl⟩ : ∃ b0 rest, l = b0 :: rest := by
    cases l with
    | nil => exact absurd rfl hne
    | cons a r => exact ⟨a, r, rfl⟩
  have hclean : sortAndDeduplicateData (b0 :: rest) = b0 :: rest :=
    sortAndDeduplicateData_of_strict _ hdates
  have hcalc : calculateRenkoBricks (b0 :: rest) b
      = ((b0 :: rest).foldl (renkoStep b)
          { bricks := [], currentBrickPrice := (Int.floor (b0.close / b) : ℚ) * b,
            brickTime := (b0.date : ℚ) / 1000 }).bricks := by
    unfold calculateRenkoBricks
    rw [hclean]
    rfl
  have hstart0 : (Int.floor (b0.close / b) : ℚ) * b ≤ b0.close :=
    (le_div_iff₀ hb).mp (Int.floor_le _)
  have hgap0 : b0.close - (Int.floor (b0.close / b) : ℚ) * b < b := by
    have h1 : b0.close < ((Int.floor (b0.close / b) : ℚ) + 1) * b :=
      (div_lt_iff₀ hb).mp (Int.lt_floor_add_one _)
    nlinarith
  have hchain0 : List.Chain' (· ≤ ·) (b0.close :: (b0 :: rest).map PriceBar.close) := by
    rw [List.map_cons]
    exact List.chain'_cons.mpr ⟨le_refl _, by rw [← List.map_cons]; exact hmono⟩
  obtain ⟨g1, g2, g3, g4⟩ := renko_fold_mono b ((Int.floor (b0.close / b) : ℚ) * b) hb
    (b0 :: rest)
    { bricks := [], currentBrickPrice := (Int.floor (b0.close / b) : ℚ) * b,
      brickTime := (b0.date : ℚ) / 1000 }
    b0.close hchain0 (by simp) hstart0 hgap0 (fun j hj => by simp at hj)
  have hP : ((b0 :: rest).map PriceBar.close).getLastD 0
      = ((b0 :: rest).map PriceBar.close).getLastD b0.close := by
    rw [List.map_cons]
    exact getLastD_irrel _ _ _ _
  have hhead : ((b0 :: rest).map PriceBar.close).headD 0 = b0.close := by
    simp
  constructor
  · rw [hcalc, hP, hhead]
    have hfloor : Int.floor ((((b0 :: rest).map PriceBar.close).getLastD b0.close
        - (Int.floor (b0.close / b) : ℚ) * b) / b)
        = ((((b0 :: rest).foldl (renkoStep b)
            { bricks := [], currentBrickPrice := (Int.floor (b0.close / b) : ℚ) * b,
              brickTime := (b0.date : ℚ) / 1000 }).bricks.length : ℕ) : ℤ) := by
      rw [Int.floor_eq_iff]
      constructor
      · rw [le_div_iff₀ hb]
        push_cast
        linarith [g1, g3]
      · rw [div_lt_iff₀ hb]
        push_cast
        linarith [g1, g2]
    rw [hfloor]
    simp
  · intro j brk hbrk
    rw [hcalc] at hbrk
    obtain ⟨hlt, hv⟩ := List.getElem?_eq_some.mp hbrk
    have hg := g4 j hlt
    simp only [List.get_eq_getElem] at hg
    rw [hv] at hg
    rw [hhead]
    exact ⟨by linarith [hg.1, hg.2], hg.1⟩

/-- C6 witness: the monotone brick-count theorem evaluated on the concrete
non-decreasing series with closes 100, 105, 112, 125 and brickSize 10, where
it predicts floor((125 - 100)/10) = 2 bricks. -/
theorem renko_monotone_brick_count_witness :
    (calculateRenkoBricks
        [⟨0, 100, 100, 100, 100, 1⟩, ⟨1, 105, 105, 105, 105, 1⟩,
         ⟨2, 112, 112, 112, 112, 1⟩, ⟨3, 125, 125, 125, 125, 1⟩] 10).length
      = (Int.floor (((([⟨0, 100, 100, 100, 100, 1⟩, ⟨1, 105, 105, 105, 105, 1⟩,
          ⟨2, 112, 112, 112, 112, 1⟩, ⟨3, 125, 125, 125, 125, 1⟩] :
            List PriceBar).map PriceBar.close).getLastD 0
          - (Int.floor ((([⟨0, 100, 100, 100, 100, 1⟩, ⟨1, 105, 105, 105, 105, 1⟩,
          ⟨2, 112, 112, 112, 112, 1⟩, ⟨3, 125, 125, 125, 125, 1⟩] :
            List PriceBar).map PriceBar.close).headD 0 / 10) : ℚ) * 10) / 10)).toNat ∧
    ∀ (j : ℕ) (brk : Brick), (calculateRenkoBricks
        [⟨0, 100, 100, 100, 100, 1⟩, ⟨1, 105, 105, 105, 105, 1⟩,
         ⟨2, 112, 112, 112, 112, 1⟩, ⟨3, 125, 125, 125, 125, 1⟩] 10)[j]? = some brk →
      brk.close = brk.open_ + 10 ∧
      brk.open_ = (Int.floor ((([⟨0, 100, 100, 100, 100, 1⟩, ⟨1, 105, 105, 105, 105, 1⟩,
          ⟨2, 112, 112, 112, 112, 1⟩, ⟨3, 125, 125, 125, 125, 1⟩] :
            List PriceBar).map PriceBar.close).headD 0 / 10) : ℚ) * 10 + 10 * j :=
  renko_monotone_brick_count _ 10 (by norm_num) (by decide)
    (by simp [List.chain'_cons]) (by simp [List.chain'_cons]; norm_num)

/-- Direction of a Point-and-Figure column: X = rising, O = falling. -/
inductive PFType where
  | X : PFType
  | O : PFType
deriving DecidableEq, Repr

/-- One Point-and-Figure column (PointFigureChart): a direction, the box
indices accumulated so far, and the source bar index where the column began. -/
structure PFColumn where
  type : PFType
  boxes : List ℤ
  startIndex : ℕ
deriving DecidableEq, Repr

/-- The ascending box loop `for (box = a; box <= b; box++)`. -/
def boxRangeAsc (a b : ℤ) : List ℤ :=
  (List.range (b + 1 - a).toNat).map (fun k => a + k)

/-- The descending box loop `for (box = a; box >= b; box--)`. -/
def boxRangeDesc (a b : ℤ) : List ℤ :=
  (List.range (a + 1 - b).toNat).map (fun k => a - k)

/-- One iteration of the bar loop of `calculatePointFigure`.  The JS code
mutates `currentColumn`, which aliases the most recently pushed element of
`columns`; this is modelled by keeping the column list in reverse order with
the current column at the head.  The `[]` case is the `!currentColumn` branch,
reachable only at `i = 0` where `currentPrice` equals the bar's own close. -/
def pfStep (boxSize reversalAmount : ℚ) (i : ℕ) (bar : PriceBar)
    (revCols : List PFColumn) : List PFColumn :=
  match revCols with
  | [] => [{ type := PFType.X, boxes := [Int.floor (bar.close / boxSize)], startIndex := i }]
  | cur :: rest =>
    match cur.boxes.getLast? with
    | none => cur :: rest
    | some lastBox =>
      match cur.type with
      | PFType.X =>
        if lastBox < Int.floor (bar.high / boxSize) then
          { cur with boxes :=
              cur.boxes ++ boxRangeAsc (lastBox + 1) (Int.floor (bar.high / boxSize)) } :: rest
        else if boxSize * reversalAmount ≤ (lastBox : ℚ) * boxSize - bar.low then
          { type := PFType.O,
            boxes := boxRangeDesc (lastBox - 1) (Int.floor (bar.low / boxSize)),
            startIndex := i } :: cur :: rest
        else cur :: rest
      | PFType.O =>
        if Int.floor (bar.low / boxSize) < lastBox then
          { cur with boxes :=
              cur.boxes ++ boxRangeDesc (lastBox - 1) (Int.floor (bar.low / boxSize)) } :: rest
        else if boxSize * reversalAmount ≤ bar.high - (lastBox : ℚ) * boxSize then
          { type := PFType.X,
            boxes := boxRangeAsc (lastBox + 1) (Int.floor (bar.high / boxSize)),
            startIndex := i } :: cur :: rest
        else cur :: rest

/-- Embedding of `calculatePointFigure` (PointFigureChart): fold the bar loop
over the indexed bars and restore chronological column order. -/
def calculatePointFigure (priceData : List PriceBar) (boxSize reversalAmount : ℚ) :
    List PFColumn :=
  if priceData.isEmpty then [] else
  (priceData.enum.foldl
    (fun rc p => pfStep boxSize reversalAmount p.1 p.2 rc) []).reverse

lemma pfStep_types (boxSize reversalAmount : ℚ) (i : ℕ) (bar : PriceBar)
    (rc : List PFColumn)
    (h : List.Chain' (fun a b => a.type ≠ b.type) rc) :
    List.Chain' (fun a b => a.type ≠ b.type)
      (pfStep boxSize reversalAmount i bar rc) := by
  match rc with
  | [] => simp [pfStep]
  | cur :: rest =>
    cases hlb : cur.boxes.getLast? with
    | none => simpa [pfStep, hlb] using h
    | some lastBox =>
      obtain ⟨hhd, htl⟩ := List.chain'_cons'.mp h
      cases hty : cur.type with
      | X =>
        simp only [pfStep, hlb, hty]
        split_ifs with h1 h2
        · exact List.chain'_cons'.mpr ⟨fun y hy => by simpa [hty] using hhd y hy, htl⟩
        · exact List.chain'_cons.mpr ⟨by simp [hty], h⟩
        · exact h
      | O =>
        simp only [pfStep, hlb, hty]
        split_ifs with h1 h2
        · exact List.chain'_cons'.mpr ⟨fun y hy => by simpa [hty] using hhd y hy, htl⟩
        · exact List.chain'_cons.mpr ⟨by simp [hty], h⟩
        · exact h

lemma pf_fold_types (boxSize reversalAmount : ℚ) :
    ∀ (ps : List (ℕ × PriceBar)) (rc : List PFColumn),
      List.Chain' (fun a b => a.type ≠ b.type) rc →
      List.Chain' (fun a b => a.type ≠ b.type)
        (ps.foldl (fun rc p => pfStep boxSize reversalAmount p.1 p.2 rc) rc)
  | [], _, h => h
  | p :: ps, rc, h =>
    pf_fold_types boxSize reversalAmount ps _
      (pfStep_types boxSize reversalAmount p.1 p.2 rc h)

lemma pfStep_ne_nil (boxSize reversalAmount : ℚ) (i : ℕ) (bar : PriceBar)
    (rc : List PFColumn) : pfStep boxSize reversalAmount i bar rc ≠ [] := by
  match rc with
  | [] => simp [pfStep]
  | cur :: rest =>
    cases hlb : cur.boxes.getLast? with
    | none => simp [pfStep, hlb]
    | some lastBox =>
      cases hty : cur.type with
      | X =>
        simp only [pfStep, hlb, hty]
        split_ifs <;> simp
      | O =>
        simp only [pfStep, hlb, hty]
        split_ifs <;> simp

lemma pf_fold_ne_nil (boxSize reversalAmount : ℚ) :
    ∀ (ps : List (ℕ × PriceBar)) (rc : List PFColumn), rc ≠ [] →
      ps.foldl (fun rc p => pfStep boxSize reversalAmount p.1 p.2 rc) rc ≠ []
  | [], _, h => h
  | p :: ps, rc, _ =>
    pf_fold_ne_nil boxSize reversalAmount ps _
      (pfStep_ne_nil boxSize reversalAmount p.1 p.2 rc)

/-- C7: the Point-and-Figure column sequence strictly alternates in direction,
and the step function opens a new column (on a non-empty state) only when the
bar's price moves against the current column's trend by at least
`reversalAmount * boxSize` measured from the column's last recorded box level
(its topmost box for an X column, its bottommost box for an O column). -/
theorem pointFigure_alternation_and_reversal_threshold (l : List PriceBar)
    (boxSize reversalAmount : ℚ) (hb : 0 < boxSize) (hr : 0 < reversalAmount) :
    List.Chain' (fun a b => a.type ≠ b.type)
      (calculatePointFigure l boxSize reversalAmount) ∧
    (∀ (i : ℕ) (bar : PriceBar) (cur : PFColumn) (rest : List PFColumn),
      (pfStep boxSize reversalAmount i bar (cur :: rest)).length > (cur :: rest).length →
      ∃ lastBox : ℤ, cur.boxes.getLast? = some lastBox ∧
        ((cur.type = PFType.X ∧
            boxSize * reversalAmount ≤ (lastBox : ℚ) * boxSize - bar.low) ∨
         (cur.type = PFType.O ∧
            boxSize * reversalAmount ≤ bar.high - (lastBox : ℚ) * boxSize))) := by
  constructor
  · unfold calculatePointFigure
    by_cases he : l.isEmpty
    · simp [he]
    simp only [if_neg he]
    rw [List.chain'_reverse]
    exact (pf_fold_types boxSize reversalAmount l.enum [] (by simp)).imp
      (fun a b hab => Ne.symm hab)
  · intro i bar cur rest hlen
    cases hlb : cur.boxes.getLast? with
    | none =>
      rw [show pfStep boxSize reversalAmount i bar (cur :: rest) = cur :: rest by
        simp [pfStep, hlb]] at hlen
      omega
    | some lastBox =>
      refine ⟨lastBox, rfl, ?_⟩
      cases hty : cur.type with
      | X =>
        left
        refine ⟨rfl, ?_⟩
        by_contra hcond
        rw [show pfStep boxSize reversalAmount i bar (cur :: rest)
            = if lastBox < Int.floor (bar.high / boxSize) then
                { cur with boxes := cur.boxes
                    ++ boxRangeAsc (lastBox + 1) (Int.floor (bar.high / boxSize)) } :: rest
              else cur :: rest by
          simp only [pfStep, hlb, hty]
          rw [if_neg hcond]] at hlen
        split_ifs at hlen <;> simp at hlen
      | O =>
        right
        refine ⟨rfl, ?_⟩
        by_contra hcond
        rw [show pfStep boxSize reversalAmount i bar (cur :: rest)
            = if Int.floor (bar.low / boxSize) < lastBox then
                { cur with boxes := cur.boxes
                    ++ boxRangeDesc (lastBox - 1) (Int.floor (bar.low / boxSize)) } :: rest
              else cur :: rest by
          simp only [pfStep, hlb, hty]
          rw [if_neg hcond]] at hlen
        split_ifs at hlen <;> simp at hlen

/-- C7 witness: alternation theorem evaluated on a concrete series with
box 10 and reversal 3 that produces an X column and a reversal O column. -/
theorem pointFigure_alternation_witness :
    List.Chain' (fun a b => a.type ≠ b.type)
      (calculatePointFigure
        [⟨0, 100, 100, 100, 100, 1⟩, ⟨1, 140, 140, 135, 140, 1⟩,
         ⟨2, 95, 100, 95, 95, 1⟩] 10 3) ∧
    (∀ (i : ℕ) (bar : PriceBar) (cur : PFColumn) (rest : List PFColumn),
      (pfStep 10 3 i bar (cur :: rest)).length > (cur :: rest).length →
      ∃ lastBox : ℤ, cur.boxes.getLast? = some lastBox ∧
        ((cur.type = PFType.X ∧
            (10 : ℚ) * 3 ≤ (lastBox : ℚ) * 10 - bar.low) ∨
         (cur.type = PFType.O ∧
            (10 : ℚ) * 3 ≤ bar.high - (lastBox : ℚ) * 10))) :=
  pointFigure_alternation_and_reversal_threshold _ 10 3 (by norm_num) (by norm_num)

/-- C1 counterexample: with the invalid configuration `boxSize = -10` the
Point-and-Figure builder is not rejected at any boundary — it runs to
completion and returns a computed two-column result for this two-bar input
(there is no configuration-error path anywhere in the transformer). -/
theorem pointFigure_negative_boxSize_computes :
    calculatePointFigure
        [⟨0, 100, 100, 100, 100, 1⟩, ⟨1, 60, 200, 50, 60, 1⟩] (-10) 3
      = [⟨PFType.X, [-10], 0⟩, ⟨PFType.O, [], 1⟩] := by
  norm_num [calculatePointFigure, pfStep, boxRangeDesc, boxRangeAsc,
    List.enum, List.enumFrom]
  intro x
  omega

/-- C1 (amended): no transformer validates its configuration.  A non-positive
`boxSize` is used directly in the computation: for every nonempty input the
Point-and-Figure builder still emits at least one column instead of surfacing
a configuration error. -/
theorem pointFigure_nonpositive_boxSize_still_emits (l : List PriceBar)
    (boxSize reversalAmount : ℚ) (hne : l ≠ []) (hnp : boxSize ≤ 0) :
    calculatePointFigure l boxSize reversalAmount ≠ [] := by
  unfold calculatePointFigure
  have hie : l.isEmpty = false := by
    cases l with
    | nil => exact absurd rfl hne
    | cons a r => rfl
  rw [hie]
  simp only [Bool.false_eq_true, if_false]
  rw [ne_eq, List.reverse_eq_nil_iff]
  cases l with
  | nil => exact absurd rfl hne
  | cons bar rest =>
    have henum : (bar :: rest).enum = (0, bar) :: rest.enumFrom 1 := by
      simp [List.enum]
    rw [henum]
    exact pf_fold_ne_nil boxSize reversalAmount (rest.enumFrom 1) _
      (pfStep_ne_nil boxSize reversalAmount 0 bar [])

/-- C1 witness: the amended theorem at a concrete one-bar input with the
non-positive boxSize -10. -/
theorem pointFigure_nonpositive_boxSize_still_emits_witness :
    calculatePointFigure [⟨0, 100, 100, 100, 100, 1⟩] (-10) 3 ≠ [] :=
  pointFigure_nonpositive_boxSize_still_emits _ (-10) 3 (by decide) (by norm_num)

/-- One volume-profile bucket of `drawVolumeProfile`: center price and
accumulated volume. -/
structure VolumeBin where
  price : ℚ
  volume : ℚ
deriving DecidableEq, Repr

/-- JS `Math.min(...prices)` over a nonempty array (the component only calls
it with at least one bar; `0` is a junk value for the empty list). -/
def listMin : List ℚ → ℚ
  | [] => 0
  | x :: xs => xs.foldl min x

/-- JS `Math.max(...prices)` over a nonempty array. -/
def listMax : List ℚ → ℚ
  | [] => 0
  | x :: xs => xs.foldl max x

/-- Bucket index `Math.min(Math.floor((d.close - minPrice) / binSize), bins - 1)`
of `drawVolumeProfile`, with the IEEE behaviour at `binSize = 0` made explicit:
there the division yields NaN (when `close = minPrice`) or -Infinity (when
`close < minPrice`), both of which fail the later `binIndex >= 0` guard, or
+Infinity (when `close > minPrice`), where `Math.min` returns `bins - 1`.
`none` models an index that the guard will reject. -/
def jsBinIndex (close minPrice binSize : ℚ) (bins : ℕ) : Option ℤ :=
  if binSize = 0 then
    if minPrice < close then some ((bins : ℤ) - 1) else none
  else
    some (min (Int.floor ((close - minPrice) / binSize)) ((bins : ℤ) - 1))

/-- `volumeBins[binIndex].volume += d.volume`. -/
def addVolumeAt : List VolumeBin → ℕ → ℚ → List VolumeBin
  | [], _, _ => []
  | bin :: rest, 0, v => { bin with volume := bin.volume + v } :: rest
  | bin :: rest, n + 1, v => bin :: addVolumeAt rest n v

/-- Embedding of the binning part of `drawVolumeProfile` (VolumeProfileChart;
the canvas drawing around it is rendering, not data): compute the close-price
range, create `bins` equal-width buckets, then fold over the bars adding each
bar's volume to its bucket when the index passes the
`binIndex >= 0 && binIndex < bins` range check. -/
def volumeAccum (minPrice binSize : ℚ) (bins : ℕ)
    (vb : List VolumeBin) (d : PriceBar) : List VolumeBin :=
  match jsBinIndex d.close minPrice binSize bins with
  | some idx =>
      if 0 ≤ idx ∧ idx < (bins : ℤ) then addVolumeAt vb idx.toNat d.volume else vb
  | none => vb

def volumeProfileBins (priceData : List PriceBar) (bins : ℕ) : List VolumeBin :=
  let minPrice := listMin (priceData.map PriceBar.close)
  let maxPrice := listMax (priceData.map PriceBar.close)
  let binSize := (maxPrice - minPrice) / (bins : ℚ)
  priceData.foldl (volumeAccum minPrice binSize bins)
    ((List.range bins).map (fun i : ℕ =>
      { price := minPrice + (i : ℚ) * binSize + binSize / 2, volume := 0 }))

lemma foldl_min_le (a : ℚ) : ∀ (xs : List ℚ), xs.foldl min a ≤ a ∧
    ∀ x ∈ xs, xs.foldl min a ≤ x
  | [] => ⟨le_refl a, fun x hx => absurd hx (List.not_mem_nil x)⟩
  | y :: ys => by
    obtain ⟨h1, h2⟩ := foldl_min_le (min a y) ys
    refine ⟨le_trans h1 (min_le_left a y), fun x hx => ?_⟩
    rcases List.mem_cons.mp hx with rfl | hx
    · exact le_trans h1 (min_le_right a x)
    · exact h2 x hx

lemma foldl_max_ge (a : ℚ) : ∀ (xs : List ℚ), a ≤ xs.foldl max a ∧
    ∀ x ∈ xs, x ≤ xs.foldl max a
  | [] => ⟨le_refl a, fun x hx => absurd hx (List.not_mem_nil x)⟩
  | y :: ys => by
    obtain ⟨h1, h2⟩ := foldl_max_ge (max a y) ys
    refine ⟨le_trans (le_max_left a y) h1, fun x hx => ?_⟩
    rcases List.mem_cons.mp hx with rfl | hx
    · exact le_trans (le_max_right a x) h1
    · exact h2 x hx

lemma listMin_le {xs : List ℚ} {x : ℚ} (hx : x ∈ xs) : listMin xs ≤ x := by
  cases xs with
  | nil => exact absurd hx (List.not_mem_nil x)
  | cons y ys =>
    rcases List.mem_cons.mp hx with rfl | hm
    · exact (foldl_min_le x ys).1
    · exact (foldl_min_le y ys).2 x hm

lemma le_listMax {xs : List ℚ} {x : ℚ} (hx : x ∈ xs) : x ≤ listMax xs := by
  cases xs with
  | nil => exact absurd hx (List.not_mem_nil x)
  | cons y ys =>
    rcases List.mem_cons.mp hx with rfl | hm
    · exact (foldl_max_ge x ys).1
    · exact (foldl_max_ge y ys).2 x hm

lemma addVolumeAt_length : ∀ (vb : List VolumeBin) (n : ℕ) (v : ℚ),
    (addVolumeAt vb n v).length = vb.length
  | [], _, _ => rfl
  | _ :: rest, 0, _ => by simp [addVolumeAt]
  | _ :: rest, n + 1, v => by simp [addVolumeAt, addVolumeAt_length rest n v]

lemma addVolumeAt_sum : ∀ (vb : List VolumeBin) (n : ℕ) (v : ℚ), n < vb.length →
    ((addVolumeAt vb n v).map VolumeBin.volume).sum
      = (vb.map VolumeBin.volume).sum + v
  | [], n, _, h => by simp at h
  | bin :: rest, 0, v, _ => by
    simp [addVolumeAt]
    ring
  | bin :: rest, n + 1, v, h => by
    have hn : n < rest.length := by simpa using h
    simp [addVolumeAt, addVolumeAt_sum rest n v hn]
    ring


lemma volumeFold_sum (bins : ℕ) (minPrice binSize : ℚ) :
    ∀ (ds : List PriceBar) (vb : List VolumeBin),
      vb.length = bins →
      (∀ d ∈ ds, ∃ idx : ℤ, jsBinIndex d.close minPrice binSize bins = some idx ∧
          0 ≤ idx ∧ idx < (bins : ℤ)) →
      ((ds.foldl (volumeAccum minPrice binSize bins) vb).map VolumeBin.volume).sum
        = (vb.map VolumeBin.volume).sum + (ds.map PriceBar.volume).sum
  | [], vb, _, _ => by simp
  | d :: ds, vb, hlen, hall => by
    obtain ⟨idx, heq, h0, h1⟩ := hall d (List.mem_cons_self d ds)
    have hstep : volumeAccum minPrice binSize bins vb d
        = addVolumeAt vb idx.toNat d.volume := by
      unfold volumeAccum
      rw [heq]
      exact if_pos ⟨h0, h1⟩
    have hidx : idx.toNat < vb.length := by
      rw [hlen]
      omega
    have hlen2 : (addVolumeAt vb idx.toNat d.volume).length = bins := by
      rw [addVolumeAt_length, hlen]
    have hrest := volumeFold_sum bins minPrice binSize ds
      (addVolumeAt vb idx.toNat d.volume) hlen2
      (fun x hx => hall x (List.mem_cons_of_mem d hx))
    rw [List.foldl_cons, hstep, hrest, addVolumeAt_sum vb idx.toNat d.volume hidx]
    simp
    ring

lemma volumeFold_noop (bins : ℕ) (minPrice binSize : ℚ) :
    ∀ (ds : List PriceBar) (vb : List VolumeBin),
      (∀ d ∈ ds, jsBinIndex d.close minPrice binSize bins = none) →
      ds.foldl (volumeAccum minPrice binSize bins) vb = vb
  | [], _, _ => rfl
  | d :: ds, vb, hall => by
    have hstep : volumeAccum minPrice binSize bins vb d = vb := by
      unfold volumeAccum
      rw [hall d (List.mem_cons_self d ds)]
    rw [List.foldl_cons, hstep]
    exact volumeFold_noop bins minPrice binSize ds vb
      (fun x hx => hall x (List.mem_cons_of_mem d hx))

lemma foldl_const_eq (a : ℚ) : ∀ (xs : List ℚ) (f : ℚ → ℚ → ℚ),
    (f a a = a) → (∀ x ∈ xs, x = a) → xs.foldl f a = a
  | [], _, _, _ => rfl
  | x :: xs, f, hf, hall => by
    have hx : x = a := hall x (List.mem_cons_self x xs)
    rw [List.foldl_cons, hx, hf]
    exact foldl_const_eq a xs f hf (fun y hy => hall y (List.mem_cons_of_mem x hy))

lemma listMin_const {xs : List ℚ} {c : ℚ} (hne : xs ≠ []) (hall : ∀ x ∈ xs, x = c) :
    listMin xs = c := by
  cases xs with
  | nil => exact absurd rfl hne
  | cons y ys =>
    have hy : y = c := hall y (List.mem_cons_self y ys)
    subst hy
    exact foldl_const_eq y ys min (min_self y)
      (fun x hx => hall x (List.mem_cons_of_mem y hx))

lemma listMax_const {xs : List ℚ} {c : ℚ} (hne : xs ≠ []) (hall : ∀ x ∈ xs, x = c) :
    listMax xs = c := by
  cases xs with
  | nil => exact absurd rfl hne
  | cons y ys =>
    have hy : y = c := hall y (List.mem_cons_self y ys)
    subst hy
    exact foldl_const_eq y ys max (max_self y)
      (fun x hx => hall x (List.mem_cons_of_mem y hx))


lemma binsMap_volume_sum : ∀ (xs : List VolumeBin),
    (∀ bin ∈ xs, bin.volume = 0) → (xs.map VolumeBin.volume).sum = 0
  | [], _ => rfl
  | bin :: rest, h => by
    rw [List.map_cons, List.sum_cons, h bin (List.mem_cons_self bin rest),
      binsMap_volume_sum rest (fun x hx => h x (List.mem_cons_of_mem bin hx))]
    norm_num

lemma volumeProfileBins_length (l : List PriceBar) (bins : ℕ) :
    (volumeProfileBins l bins).length = bins := by
  unfold volumeProfileBins
  have hgen : ∀ (ds : List PriceBar) (mp bs : ℚ) (vb : List VolumeBin),
      (ds.foldl (volumeAccum mp bs bins) vb).length = vb.length := by
    intro ds
    induction ds with
    | nil => intro mp bs vb; rfl
    | cons d ds ih =>
      intro mp bs vb
      rw [List.foldl_cons, ih]
      unfold volumeAccum
      cases jsBinIndex d.close mp bs bins with
      | none => rfl
      | some idx =>
        by_cases hc : 0 ≤ idx ∧ idx < (bins : ℤ)
        · simp only [if_pos hc]
          exact addVolumeAt_length vb idx.toNat d.volume
        · simp only [if_neg hc]
  rw [hgen]
  rw [List.length_map, List.length_range]

lemma volumeProfile_flat_zero_aux (l : List PriceBar) (bins : ℕ) (c : ℚ)
    (hne : l ≠ []) (hflat : ∀ d ∈ l, d.close = c) :
    ∀ bin ∈ volumeProfileBins l bins, bin.volume = 0 := by
  have hmapne : l.map PriceBar.close ≠ [] := by
    cases l with
    | nil => exact absurd rfl hne
    | cons a r => simp
  have hallc : ∀ x ∈ l.map PriceBar.close, x = c := by
    intro x hx
    obtain ⟨d, hd, rfl⟩ := List.mem_map.mp hx
    exact hflat d hd
  have hminc : listMin (l.map PriceBar.close) = c := listMin_const hmapne hallc
  have hmaxc : listMax (l.map PriceBar.close) = c := listMax_const hmapne hallc
  have hbs : (listMax (l.map PriceBar.close) - listMin (l.map PriceBar.close))
      / (bins : ℚ) = 0 := by
    rw [hminc, hmaxc]
    simp
  have hnone : ∀ d ∈ l, jsBinIndex d.close (listMin (l.map PriceBar.close))
      ((listMax (l.map PriceBar.close) - listMin (l.map PriceBar.close))
        / (bins : ℚ)) bins = none := by
    intro d hd
    rw [hbs, hminc]
    unfold jsBinIndex
    rw [if_pos rfl, if_neg]
    rw [hflat d hd]
    exact lt_irrefl c
  unfold volumeProfileBins
  rw [volumeFold_noop bins _ _ l _ hnone]
  intro bin hbin
  obtain ⟨i, _, rfl⟩ := List.mem_map.mp hbin
  rfl

/-- C3 (amended): on every window whose closes are not all equal (positive
bin width) and with at least one bucket, the Volume Profile conserves
volume — the sum over all buckets equals the sum of the bar volumes, each
bar landing in exactly one clamped bucket.  (On a flat window the zero bin
width makes every index fail the range guard and all volume is dropped, see
the counterexample.) -/
theorem volumeProfile_conservation_nonflat (l : List PriceBar) (bins : ℕ)
    (hbins : 1 ≤ bins)
    (hflat : listMin (l.map PriceBar.close) < listMax (l.map PriceBar.close)) :
    ((volumeProfileBins l bins).map VolumeBin.volume).sum
      = (l.map PriceBar.volume).sum := by
  unfold volumeProfileBins
  set minPrice := listMin (l.map PriceBar.close) with hmin
  set maxPrice := listMax (l.map PriceBar.close) with hmax
  set binSize := (maxPrice - minPrice) / (bins : ℚ) with hbs
  have hbinsq : (0 : ℚ) < (bins : ℚ) := by
    exact_mod_cast Nat.lt_of_lt_of_le Nat.zero_lt_one hbins
  have hbspos : 0 < binSize := by
    rw [hbs]
    apply div_pos _ hbinsq
    linarith
  have hlen : ((List.range bins).map (fun i : ℕ =>
      ({ price := minPrice + (i : ℚ) * binSize + binSize / 2,
         volume := 0 } : VolumeBin))).length = bins := by
    rw [List.length_map, List.length_range]
  have hall : ∀ d ∈ l, ∃ idx : ℤ,
      jsBinIndex d.close minPrice binSize bins = some idx ∧
      0 ≤ idx ∧ idx < (bins : ℤ) := by
    intro d hd
    refine ⟨min (Int.floor ((d.close - minPrice) / binSize)) ((bins : ℤ) - 1),
      ?_, ?_, ?_⟩
    · unfold jsBinIndex
      rw [if_neg (ne_of_gt hbspos)]
    · apply le_min
      · apply Int.floor_nonneg.mpr
        apply div_nonneg _ (le_of_lt hbspos)
        have hmle : minPrice ≤ d.close :=
          listMin_le (List.mem_map_of_mem PriceBar.close hd)
        linarith
      · omega
    · have h1 : min (Int.floor ((d.close - minPrice) / binSize)) ((bins : ℤ) - 1)
          ≤ (bins : ℤ) - 1 := min_le_right _ _
      omega
  rw [volumeFold_sum bins minPrice binSize l _ hlen hall]
  have h0 : (((List.range bins).map (fun i : ℕ =>
      ({ price := minPrice + (i : ℚ) * binSize + binSize / 2,
         volume := 0 } : VolumeBin))).map VolumeBin.volume).sum = 0 := by
    apply binsMap_volume_sum
    intro bin hbin
    obtain ⟨i, _, rfl⟩ := List.mem_map.mp hbin
    rfl
  rw [h0]
  ring

/-- C3 witness: volume conservation on a concrete non-flat two-bar window
with the default 20 buckets. -/
theorem volumeProfile_conservation_nonflat_witness :
    ((volumeProfileBins
        [⟨0, 100, 100, 100, 100, 5⟩, ⟨1, 110, 110, 110, 110, 7⟩] 20).map
      VolumeBin.volume).sum
      = (([⟨0, 100, 100, 100, 100, 5⟩, ⟨1, 110, 110, 110, 110, 7⟩] :
          List PriceBar).map PriceBar.volume).sum :=
  volumeProfile_conservation_nonflat _ 20 (by norm_num)
    (by norm_num [listMin, listMax])

/-- C3 counterexample: on a flat window (both closes 100) the claimed
conservation fails for every input series with all closes equal — here the
buckets sum to 0 while the bars carry volume 12, because the zero bin width
sends every bar through the NaN index path and its volume is dropped. -/
theorem volumeProfile_conservation_fails_flat :
    ((volumeProfileBins
        [⟨0, 100, 100, 100, 100, 5⟩, ⟨1, 100, 100, 100, 100, 7⟩] 20).map
      VolumeBin.volume).sum
      ≠ (([⟨0, 100, 100, 100, 100, 5⟩, ⟨1, 100, 100, 100, 100, 7⟩] :
          List PriceBar).map PriceBar.volume).sum := by
  have h0 : ((volumeProfileBins
      [⟨0, 100, 100, 100, 100, 5⟩, ⟨1, 100, 100, 100, 100, 7⟩] 20).map
        VolumeBin.volume).sum = 0 :=
    binsMap_volume_sum _ (volumeProfile_flat_zero_aux _ 20 100 (by simp)
      (by intro d hd; simp at hd; rcases hd with rfl | rfl <;> rfl))
  rw [h0]
  norm_num

/-- C2 counterexample: on a flat series the total volume is not assigned to a
single bucket as claimed — every one of the 20 buckets ends with volume 0
while the bars carry nonzero total volume. -/
theorem volumeProfile_flat_no_single_bucket :
    ((volumeProfileBins
        [⟨0, 100, 100, 100, 100, 3⟩, ⟨1, 100, 100, 100, 100, 4⟩] 20).map
      VolumeBin.volume) = List.replicate 20 0 ∧
    (([⟨0, 100, 100, 100, 100, 3⟩, ⟨1, 100, 100, 100, 100, 4⟩] :
        List PriceBar).map PriceBar.volume).sum ≠ 0 := by
  constructor
  · apply List.eq_replicate_iff.mpr
    constructor
    · rw [List.length_map, volumeProfileBins_length]
    · intro v hv
      obtain ⟨bin, hbin, rfl⟩ := List.mem_map.mp hv
      exact volumeProfile_flat_zero_aux _ 20 100 (by simp)
        (by intro d hd; simp at hd; rcases hd with rfl | rfl <;> rfl)
        bin hbin
  · norm_num

/-- C2 (amended): the zero-bin-width case is not special-cased.  On a flat
series (all closes equal) every bar's bucket index computation divides by
zero; under IEEE semantics the NaN index fails the `binIndex >= 0` guard, so
no volume is ever added: every bucket's volume is exactly 0 (no NaN reaches
the buckets, but the total volume is dropped rather than assigned to a
single bucket). -/
theorem volumeProfile_flat_all_bins_zero (l : List PriceBar) (bins : ℕ) (c : ℚ)
    (hne : l ≠ []) (hflat : ∀ d ∈ l, d.close = c) :
    ∀ bin ∈ volumeProfileBins l bins, bin.volume = 0 :=
  volumeProfile_flat_zero_aux l bins c hne hflat

/-- C2 witness: the flat-series theorem at a concrete two-bar flat window,
instantiated at the first bucket of the profile. -/
theorem volumeProfile_flat_all_bins_zero_witness :
    ((volumeProfileBins
      [⟨0, 100, 100, 100, 100, 3⟩, ⟨1, 100, 100, 100, 100, 4⟩] 20).getD 0
        ⟨0, 0⟩).volume = 0 :=
  volumeProfile_flat_all_bins_zero
    [⟨0, 100, 100, 100, 100, 3⟩, ⟨1, 100, 100, 100, 100, 4⟩] 20 100 (by simp)
    (by intro d hd; simp at hd; rcases hd with rfl | rfl <;> rfl)
    _
    (by
      have h20 : 0 < (volumeProfileBins
          [⟨0, 100, 100, 100, 100, 3⟩, ⟨1, 100, 100, 100, 100, 4⟩] 20).length := by
        rw [volumeProfileBins_length]
        norm_num
      rw [List.getD_eq_getElem?_getD, List.getElem?_eq_getElem h20]
      exact List.getElem_mem h20)

/-- `data.data.slice(-100)` of the TechnicalIndicators component: the last
min(n, 100) bars. -/
def limitedData (l : List PriceBar) : List PriceBar := l.drop (l.length - 100)

/-- `calculateSMA` (TechnicalIndicators): null before `period - 1`, else the
mean of the trailing `period` closes
(`prices.slice(idx - period + 1, idx + 1)`). -/
def calculateSMA (prices : List ℚ) (period : ℕ) : List (Option ℚ) :=
  (List.range prices.length).map (fun idx =>
    if idx < period - 1 then none
    else some ((((prices.drop (idx + 1 - period)).take period).sum) / (period : ℚ)))

/-- The close-to-close deltas summed by the RSI loop
(`for j = i - period + 1 .. i, change = prices[j] - prices[j-1]`). -/
def rsiDeltas (prices : List ℚ) (period i : ℕ) : List ℚ :=
  (List.range period).map (fun k =>
    prices.getD (i - period + 1 + k) 0 - prices.getD (i - period + k) 0)

/-- The RSI value at a well-defined index `i ≥ period`: split the deltas into
gains and losses, `rs = avgGain / (avgLoss || 1)`, `rsi = 100 - 100/(1+rs)`. -/
def rsiAt (prices : List ℚ) (period i : ℕ) : ℚ :=
  let gains := ((rsiDeltas prices period i).map (fun c => if 0 < c then c else 0)).sum
  let losses := ((rsiDeltas prices period i).map (fun c => if 0 < c then 0 else -c)).sum
  let avgGain := gains / (period : ℚ)
  let avgLoss := losses / (period : ℚ)
  let rs := avgGain / (if avgLoss = 0 then 1 else avgLoss)
  100 - 100 / (1 + rs)

/-- `calculateRSI` (TechnicalIndicators): null for `i < period`, the rsi value
otherwise. -/
def calculateRSI (prices : List ℚ) (period : ℕ) : List (Option ℚ) :=
  (List.range prices.length).map (fun i =>
    if i < period then none else some (rsiAt prices period i))

/-- The EMA recurrence loop `ema.push(data[i]*k + ema[i-1]*(1-k))`. -/
def emaAux (k : ℚ) : List ℚ → ℚ → List ℚ
  | [], _ => []
  | x :: rest, prev =>
    (x * k + prev * (1 - k)) :: emaAux k rest (x * k + prev * (1 - k))

/-- `calculateEMA` (TechnicalIndicators), seeded with `data[0]`.  (On an empty
array the JS code would produce `[undefined]`; the component never calls it
with one, since it bails out on empty data.) -/
def calculateEMA (data : List ℚ) (period : ℕ) : List ℚ :=
  match data with
  | [] => []
  | x :: rest => x :: emaAux (2 / ((period : ℚ) + 1)) rest x

/-- `calculateStdDev` (TechnicalIndicators): 0 before the warm-up, else the
square root of the population variance of the trailing window around
`sma20[idx] || 0`.  `Math.sqrt` has no rational counterpart and is abstracted
as `sqrtFn`. -/
def calculateStdDev (sqrtFn : ℚ → ℚ) (prices : List ℚ) (sma20 : List (Option ℚ))
    (idx period : ℕ) : ℚ :=
  if idx < period - 1 then 0
  else sqrtFn (((((prices.drop (idx + 1 - period)).take period).map
      (fun val => (val - ((sma20.getD idx none).getD 0)) ^ 2)).sum) / (period : ℚ))

/-- One row of the `chartData` array assembled by the TechnicalIndicators
component (the locale date string is rendering only and omitted). -/
structure IndicatorRow where
  price : ℚ
  sma20 : Option ℚ
  sma50 : Option ℚ
  rsi : Option ℚ
  macd : ℚ
  signal : ℚ
  upperBand : Option ℚ
  lowerBand : Option ℚ
deriving Repr, Inhabited

/-- The `chartData` memo of TechnicalIndicators: truncate to the last 100
bars, compute every indicator series over the truncated closes, and zip them
into rows.  The band fields replicate the JS truthiness test
`sma20[idx] ? ... : null`, under which both null and 0 produce null.
`Math.sqrt` is abstracted as `sqrtFn`; the claims below hold for every
implementation of it. -/
def chartData (sqrtFn : ℚ → ℚ) (l : List PriceBar) : List IndicatorRow :=
  let limited := limitedData l
  let prices := limited.map PriceBar.close
  let sma20 := calculateSMA prices 20
  let sma50 := calculateSMA prices 50
  let rsi := calculateRSI prices 14
  let macdLine := List.zipWith (fun a b => a - b)
    (calculateEMA prices 12) (calculateEMA prices 26)
  let signalLine := calculateEMA macdLine 9
  (List.range limited.length).map (fun idx =>
    { price := prices.getD idx 0
      sma20 := sma20.getD idx none
      sma50 := sma50.getD idx none
      rsi := rsi.getD idx none
      macd := macdLine.getD idx 0
      signal := signalLine.getD idx 0
      upperBand :=
        match sma20.getD idx none with
        | none => none
        | some s =>
            if s = 0 then none
            else some (s + 2 * calculateStdDev sqrtFn prices sma20 idx 20)
      lowerBand :=
        match sma20.getD idx none with
        | none => none
        | some s =>
            if s = 0 then none
            else some (s - 2 * calculateStdDev sqrtFn prices sma20 idx 20) })

lemma rangeMap_getD {α : Type} (n : ℕ) (f : ℕ → α) (idx : ℕ) (h : idx < n) (d : α) :
    ((List.range n).map f).getD idx d = f idx := by
  rw [List.getD_eq_getElem?_getD, List.getElem?_map, List.getElem?_range h]
  rfl

lemma rsiAt_range (prices : List ℚ) (period i : ℕ) (hp : 0 < period) :
    0 ≤ rsiAt prices period i ∧ rsiAt prices period i ≤ 100 := by
  unfold rsiAt
  set gains := ((rsiDeltas prices period i).map (fun c => if 0 < c then c else 0)).sum
    with hg
  set losses := ((rsiDeltas prices period i).map (fun c => if 0 < c then 0 else -c)).sum
    with hl
  have hpq : (0 : ℚ) < (period : ℚ) := by exact_mod_cast hp
  have hgain : 0 ≤ gains := by
    rw [hg]
    apply List.sum_nonneg
    intro x hx
    obtain ⟨c, _, rfl⟩ := List.mem_map.mp hx
    split <;> [linarith; exact le_refl 0]
  have hloss : 0 ≤ losses := by
    rw [hl]
    apply List.sum_nonneg
    intro x hx
    obtain ⟨c, _, rfl⟩ := List.mem_map.mp hx
    split <;> [exact le_refl 0; linarith]
  set avgGain := gains / (period : ℚ) with hag
  set avgLoss := losses / (period : ℚ) with hal
  have hagn : 0 ≤ avgGain := div_nonneg hgain (le_of_lt hpq)
  have haln : 0 ≤ avgLoss := div_nonneg hloss (le_of_lt hpq)
  have hdpos : 0 < (if avgLoss = 0 then (1 : ℚ) else avgLoss) := by
    split
    · norm_num
    · rename_i hz
      exact lt_of_le_of_ne haln (Ne.symm hz)
  set rs := avgGain / (if avgLoss = 0 then (1 : ℚ) else avgLoss) with hrs
  have hrsn : 0 ≤ rs := div_nonneg hagn (le_of_lt hdpos)
  have h1rs : (0 : ℚ) < 1 + rs := by linarith
  constructor
  · have hle : 100 / (1 + rs) ≤ 100 := by
      rw [div_le_iff₀ h1rs]
      nlinarith
    linarith
  · have hpos : 0 < 100 / (1 + rs) := by positivity
    linarith

/-- C5: for every close-price sequence, the RSI series with period 14 is null
at every index `i < 14` and at every index `i ≥ 14` carries a value in the
closed interval [0, 100] — including when the window has no losses, where the
`avgLoss || 1` division guard applies. -/
theorem rsi_warmup_null_and_range (prices : List ℚ) (i : ℕ)
    (hi : i < prices.length) :
    (i < 14 → (calculateRSI prices 14).getD i none = none) ∧
    (14 ≤ i → ∃ r, (calculateRSI prices 14).getD i none = some r ∧
      0 ≤ r ∧ r ≤ 100) := by
  unfold calculateRSI
  rw [rangeMap_getD prices.length _ i hi none]
  constructor
  · intro h14
    rw [if_pos h14]
  · intro h14
    rw [if_neg (by omega)]
    obtain ⟨h0, h100⟩ := rsiAt_range prices 14 i (by norm_num)
    exact ⟨rsiAt prices 14 i, rfl, h0, h100⟩

/-- C5 witness: the RSI range theorem instantiated at index 14 of a concrete
15-element price list (a window that contains both gains and losses). -/
theorem rsi_warmup_null_and_range_witness :
    ((14 : ℕ) < 14 →
      (calculateRSI [100, 101, 99, 102, 103, 101, 104, 105, 103, 106,
        107, 105, 108, 109, 110] 14).getD 14 none = none) ∧
    (14 ≤ (14 : ℕ) →
      ∃ r, (calculateRSI [100, 101, 99, 102, 103, 101, 104, 105, 103, 106,
        107, 105, 108, 109, 110] 14).getD 14 none = some r ∧
      0 ≤ r ∧ r ≤ 100) :=
  rsi_warmup_null_and_range
    [100, 101, 99, 102, 103, 101, 104, 105, 103, 106,
     107, 105, 108, 109, 110] 14 (by norm_num)

/-- The truncated close array `prices` of the TechnicalIndicators component. -/
def indicatorPrices (l : List PriceBar) : List ℚ :=
  (limitedData l).map PriceBar.close

/-- `macdLine = ema12.map((val, idx) => val - ema26[idx])`: the two EMA arrays
have equal length, so the map is a zip. -/
def macdLine (l : List PriceBar) : List ℚ :=
  List.zipWith (fun a b => a - b)
    (calculateEMA (indicatorPrices l) 12) (calculateEMA (indicatorPrices l) 26)

/-- `signalLine = calculateEMA(macdLine, 9)`. -/
def signalLine (l : List PriceBar) : List ℚ := calculateEMA (macdLine l) 9

lemma emaAux_length (k : ℚ) :
    ∀ (xs : List ℚ) (prev : ℚ), (emaAux k xs prev).length = xs.length
  | [], _ => rfl
  | x :: rest, prev => by simp [emaAux, emaAux_length k rest]

lemma calculateEMA_length (data : List ℚ) (period : ℕ) :
    (calculateEMA data period).length = data.length := by
  cases data with
  | nil => rfl
  | cons x rest => simp [calculateEMA, emaAux_length]

lemma limitedData_length (l : List PriceBar) :
    (limitedData l).length = min l.length 100 := by
  unfold limitedData
  rw [List.length_drop]
  omega

/-- C10: the indicator engine computes over at most the trailing 100 bars:
`limitedData` is a suffix of the input of length min(n, 100), every indicator
array (SMA20, SMA50, RSI, MACD line, signal line) has that same length, the
assembled `chartData` has that length, and each row is aligned to the
truncated window (row idx carries close, sma20, rsi and macd of index idx of
the truncated arrays) — for every sqrt implementation. -/
theorem indicators_truncate_to_last_100 (l : List PriceBar) (sqrtFn : ℚ → ℚ) :
    (limitedData l).IsSuffix l ∧
    (limitedData l).length = min l.length 100 ∧
    (calculateSMA (indicatorPrices l) 20).length = min l.length 100 ∧
    (calculateSMA (indicatorPrices l) 50).length = min l.length 100 ∧
    (calculateRSI (indicatorPrices l) 14).length = min l.length 100 ∧
    (macdLine l).length = min l.length 100 ∧
    (signalLine l).length = min l.length 100 ∧
    (chartData sqrtFn l).length = min l.length 100 ∧
    (∀ idx : ℕ, idx < min l.length 100 →
      ((chartData sqrtFn l).getD idx default).price
          = (indicatorPrices l).getD idx 0 ∧
      ((chartData sqrtFn l).getD idx default).sma20
          = (calculateSMA (indicatorPrices l) 20).getD idx none ∧
      ((chartData sqrtFn l).getD idx default).rsi
          = (calculateRSI (indicatorPrices l) 14).getD idx none ∧
      ((chartData sqrtFn l).getD idx default).macd
          = (macdLine l).getD idx 0) := by
  have hplen : (indicatorPrices l).length = min l.length 100 := by
    unfold indicatorPrices
    rw [List.length_map, limitedData_length]
  have hsma : ∀ p : ℕ, (calculateSMA (indicatorPrices l) p).length = min l.length 100 := by
    intro p
    unfold calculateSMA
    rw [List.length_map, List.length_range, hplen]
  have hrsi : (calculateRSI (indicatorPrices l) 14).length = min l.length 100 := by
    unfold calculateRSI
    rw [List.length_map, List.length_range, hplen]
  have hmacd : (macdLine l).length = min l.length 100 := by
    unfold macdLine
    rw [List.length_zipWith, calculateEMA_length, calculateEMA_length, hplen]
    omega
  have hsignal : (signalLine l).length = min l.length 100 := by
    unfold signalLine
    rw [calculateEMA_length, hmacd]
  have hchart : (chartData sqrtFn l).length = min l.length 100 := by
    unfold chartData
    rw [List.length_map, List.length_range, limitedData_length]
  refine ⟨?_, limitedData_length l, hsma 20, hsma 50, hrsi, hmacd, hsignal, hchart, ?_⟩
  · exact List.drop_suffix _ _
  · intro idx hidx
    have hidx2 : idx < (limitedData l).length := by
      rw [limitedData_length]
      exact hidx
    have hrow : (chartData sqrtFn l).getD idx default
        = { price := (indicatorPrices l).getD idx 0
            sma20 := (calculateSMA (indicatorPrices l) 20).getD idx none
            sma50 := (calculateSMA (indicatorPrices l) 50).getD idx none
            rsi := (calculateRSI (indicatorPrices l) 14).getD idx none
            macd := (macdLine l).getD idx 0
            signal := (signalLine l).getD idx 0
            upperBand :=
              match (calculateSMA (indicatorPrices l) 20).getD idx none with
              | none => none
              | some s =>
                  if s = 0 then none
                  else some (s + 2 * calculateStdDev sqrtFn (indicatorPrices l)
                    (calculateSMA (indicatorPrices l) 20) idx 20)
            lowerBand :=
              match (calculateSMA (indicatorPrices l) 20).getD idx none with
              | none => none
              | some s =>
                  if s = 0 then none
                  else some (s - 2 * calculateStdDev sqrtFn (indicatorPrices l)
                    (calculateSMA (indicatorPrices l) 20) idx 20) } := by
      unfold chartData
      exact rangeMap_getD (limitedData l).length _ idx hidx2 default
    rw [hrow]
    exact ⟨rfl, rfl, rfl, rfl⟩

/-- C10 witness: the truncation/alignment theorem instantiated on a concrete
three-bar series with the identity in place of the abstracted square root. -/
theorem indicators_truncate_to_last_100_witness :
    (limitedData [⟨0, 100, 100, 100, 100, 1⟩, ⟨1, 101, 101, 101, 101, 1⟩,
        ⟨2, 102, 102, 102, 102, 1⟩]).IsSuffix
      [⟨0, 100, 100, 100, 100, 1⟩, ⟨1, 101, 101, 101, 101, 1⟩,
        ⟨2, 102, 102, 102, 102, 1⟩] ∧
    (limitedData [⟨0, 100, 100, 100, 100, 1⟩, ⟨1, 101, 101, 101, 101, 1⟩,
        ⟨2, 102, 102, 102, 102, 1⟩]).length
      = min ([⟨0, 100, 100, 100, 100, 1⟩, ⟨1, 101, 101, 101, 101, 1⟩,
        (⟨2, 102, 102, 102, 102, 1⟩ : PriceBar)] : List PriceBar).length 100 ∧
    (calculateSMA (indicatorPrices [⟨0, 100, 100, 100, 100, 1⟩,
        ⟨1, 101, 101, 101, 101, 1⟩, ⟨2, 102, 102, 102, 102, 1⟩]) 20).length
      = min ([⟨0, 100, 100, 100, 100, 1⟩, ⟨1, 101, 101, 101, 101, 1⟩,
        (⟨2, 102, 102, 102, 102, 1⟩ : PriceBar)] : List PriceBar).length 100 ∧
    (calculateSMA (indicatorPrices [⟨0, 100, 100, 100, 100, 1⟩,
        ⟨1, 101, 101, 101, 101, 1⟩, ⟨2, 102, 102, 102, 102, 1⟩]) 50).length
      = min ([⟨0, 100, 100, 100, 100, 1⟩, ⟨1, 101, 101, 101, 101, 1⟩,
        (⟨2, 102, 102, 102, 102, 1⟩ : PriceBar)] : List PriceBar).length 100 ∧
    (calculateRSI (indicatorPrices [⟨0, 100, 100, 100, 100, 1⟩,
        ⟨1, 101, 101, 101, 101, 1⟩, ⟨2, 102, 102, 102, 102, 1⟩]) 14).length
      = min ([⟨0, 100, 100, 100, 100, 1⟩, ⟨1, 101, 101, 101, 101, 1⟩,
        (⟨2, 102, 102, 102, 102, 1⟩ : PriceBar)] : List PriceBar).length 100 ∧
    (macdLine [⟨0, 100, 100, 100, 100, 1⟩, ⟨1, 101, 101, 101, 101, 1⟩,
        ⟨2, 102, 102, 102, 102, 1⟩]).length
      = min ([⟨0, 100, 100, 100, 100, 1⟩, ⟨1, 101, 101, 101, 101, 1⟩,
        (⟨2, 102, 102, 102, 102, 1⟩ : PriceBar)] : List PriceBar).length 100 ∧
    (signalLine [⟨0, 100, 100, 100, 100, 1⟩, ⟨1, 101, 101, 101, 101, 1⟩,
        ⟨2, 102, 102, 102, 102, 1⟩]).length
      = min ([⟨0, 100, 100, 100, 100, 1⟩, ⟨1, 101, 101, 101, 101, 1⟩,
        (⟨2, 102, 102, 102, 102, 1⟩ : PriceBar)] : List PriceBar).length 100 ∧
    (chartData id [⟨0, 100, 100, 100, 100, 1⟩, ⟨1, 101, 101, 101, 101, 1⟩,
        ⟨2, 102, 102, 102, 102, 1⟩]).length
      = min ([⟨0, 100, 100, 100, 100, 1⟩, ⟨1, 101, 101, 101, 101, 1⟩,
        (⟨2, 102, 102, 102, 102, 1⟩ : PriceBar)] : List PriceBar).length 100 ∧
    (∀ idx : ℕ, idx < min ([⟨0, 100, 100, 100, 100, 1⟩, ⟨1, 101, 101, 101, 101, 1⟩,
        (⟨2, 102, 102, 102, 102, 1⟩ : PriceBar)] : List PriceBar).length 100 →
      ((chartData id [⟨0, 100, 100, 100, 100, 1⟩, ⟨1, 101, 101, 101, 101, 1⟩,
          ⟨2, 102, 102, 102, 102, 1⟩]).getD idx default).price
          = (indicatorPrices [⟨0, 100, 100, 100, 100, 1⟩, ⟨1, 101, 101, 101, 101, 1⟩,
            ⟨2, 102, 102, 102, 102, 1⟩]).getD idx 0 ∧
      ((chartData id [⟨0, 100, 100, 100, 100, 1⟩, ⟨1, 101, 101, 101, 101, 1⟩,
          ⟨2, 102, 102, 102, 102, 1⟩]).getD idx default).sma20
          = (calculateSMA (indicatorPrices [⟨0, 100, 100, 100, 100, 1⟩,
            ⟨1, 101, 101, 101, 101, 1⟩, ⟨2, 102, 102, 102, 102, 1⟩]) 20).getD idx none ∧
      ((chartData id [⟨0, 100, 100, 100, 100, 1⟩, ⟨1, 101, 101, 101, 101, 1⟩,
          ⟨2, 102, 102, 102, 102, 1⟩]).getD idx default).rsi
          = (calculateRSI (indicatorPrices [⟨0, 100, 100, 100, 100, 1⟩,
            ⟨1, 101, 101, 101, 101, 1⟩, ⟨2, 102, 102, 102, 102, 1⟩]) 14).getD idx none ∧
      ((chartData id [⟨0, 100, 100, 100, 100, 1⟩, ⟨1, 101, 101, 101, 101, 1⟩,
          ⟨2, 102, 102, 102, 102, 1⟩]).getD idx default).macd
          = (macdLine [⟨0, 100, 100, 100, 100, 1⟩, ⟨1, 101, 101, 101, 101, 1⟩,
            ⟨2, 102, 102, 102, 102, 1⟩]).getD idx 0) :=
  indicators_truncate_to_last_100
    [⟨0, 100, 100, 100, 100, 1⟩, ⟨1, 101, 101, 101, 101, 1⟩,
     ⟨2, 102, 102, 102, 102, 1⟩] id

/-- `typicalPrice = (d.high + d.low + d.close) / 3` (VWAPChart). -/
def typicalPrice (d : PriceBar) : ℚ := (d.high + d.low + d.close) / 3

/-- The forward accumulation loop of `calculateVWAP` (VWAPChart): running
`cumulativePV` and `cumulativeVolume`, emitting
`vwapValue = cumulativePV / cumulativeVolume` per bar.  The band series add
`Math.sqrt` of the running variance on top of these values and are not part
of the boundedness claim. -/
def vwapAux : List PriceBar → ℚ → ℚ → List ℚ
  | [], _, _ => []
  | d :: rest, cumPV, cumVol =>
    ((cumPV + typicalPrice d * d.volume) / (cumVol + d.volume))
      :: vwapAux rest (cumPV + typicalPrice d * d.volume) (cumVol + d.volume)

/-- Embedding of the vwap series of `calculateVWAP`, accumulated from the
start of the supplied window. -/
def calculateVWAP (priceData : List PriceBar) : List ℚ :=
  vwapAux priceData 0 0

lemma vwapAux_getD :
    ∀ (xs : List PriceBar) (p v : ℚ) (i : ℕ), i < xs.length →
      (vwapAux xs p v).getD i 0
        = (p + ((xs.take (i + 1)).map (fun d => typicalPrice d * d.volume)).sum)
          / (v + ((xs.take (i + 1)).map PriceBar.volume).sum)
  | [], _, _, i, hi => absurd hi (by simp)
  | d :: rest, p, v, 0, _ => by
    simp [vwapAux]
  | d :: rest, p, v, i + 1, hi => by
    have hi2 : i < rest.length := by simpa using hi
    have ih := vwapAux_getD rest (p + typicalPrice d * d.volume)
      (v + d.volume) i hi2
    show (vwapAux rest (p + typicalPrice d * d.volume) (v + d.volume)).getD i 0 = _
    rw [ih]
    rw [List.take_succ_cons, List.map_cons, List.map_cons, List.sum_cons, List.sum_cons]
    congr 1 <;> ring

lemma sumVol_pos : ∀ (xs : List PriceBar), xs ≠ [] →
    (∀ d ∈ xs, 0 < d.volume) → 0 < (xs.map PriceBar.volume).sum
  | [], hne, _ => absurd rfl hne
  | d :: rest, _, hv => by
    rw [List.map_cons, List.sum_cons]
    have h1 : 0 < d.volume := hv d (List.mem_cons_self d rest)
    have h2 : 0 ≤ (rest.map PriceBar.volume).sum := by
      apply List.sum_nonneg
      intro x hx
      obtain ⟨e, he, rfl⟩ := List.mem_map.mp hx
      exact le_of_lt (hv e (List.mem_cons_of_mem d he))
    linarith

lemma sum_map_mul_const (c : ℚ) :
    ∀ (xs : List PriceBar),
      ((xs.map (fun d => c * d.volume)).sum) = c * ((xs.map PriceBar.volume).sum)
  | [] => by simp
  | d :: rest => by
    rw [List.map_cons, List.sum_cons, List.map_cons, List.sum_cons,
      sum_map_mul_const c rest]
    ring

lemma weighted_mean_le (xs : List PriceBar) (hne : xs ≠ [])
    (hv : ∀ d ∈ xs, 0 < d.volume) (M : ℚ)
    (hM : ∀ d ∈ xs, typicalPrice d ≤ M) :
    ((xs.map (fun d => typicalPrice d * d.volume)).sum)
      / ((xs.map PriceBar.volume).sum) ≤ M := by
  have hV : 0 < (xs.map PriceBar.volume).sum := sumVol_pos xs hne hv
  rw [div_le_iff₀ hV]
  have h1 : ((xs.map (fun d => typicalPrice d * d.volume)).sum)
      ≤ ((xs.map (fun d => M * d.volume)).sum) := by
    apply List.sum_le_sum
    intro d hd
    exact mul_le_mul_of_nonneg_right (hM d hd) (le_of_lt (hv d hd))
  have h2 := sum_map_mul_const M xs
  linarith [h1, h2.le, h2.ge]

lemma le_weighted_mean (xs : List PriceBar) (hne : xs ≠ [])
    (hv : ∀ d ∈ xs, 0 < d.volume) (m : ℚ)
    (hm : ∀ d ∈ xs, m ≤ typicalPrice d) :
    m ≤ ((xs.map (fun d => typicalPrice d * d.volume)).sum)
      / ((xs.map PriceBar.volume).sum) := by
  have hV : 0 < (xs.map PriceBar.volume).sum := sumVol_pos xs hne hv
  rw [le_div_iff₀ hV]
  have h1 : ((xs.map (fun d => m * d.volume)).sum)
      ≤ ((xs.map (fun d => typicalPrice d * d.volume)).sum) := by
    apply List.sum_le_sum
    intro d hd
    exact mul_le_mul_of_nonneg_right (hm d hd) (le_of_lt (hv d hd))
  have h2 := sum_map_mul_const m xs
  linarith [h1, h2.le, h2.ge]

/-- C8: for a series with strictly positive volumes, every vwap value lies
between the minimum and the maximum of the typical prices of the bars seen so
far (bars 0..i of the window). -/
theorem vwap_between_min_max_typical (l : List PriceBar)
    (hv : ∀ d ∈ l, 0 < d.volume) (i : ℕ) (hi : i < l.length) :
    listMin ((l.take (i + 1)).map typicalPrice) ≤ (calculateVWAP l).getD i 0 ∧
    (calculateVWAP l).getD i 0 ≤ listMax ((l.take (i + 1)).map typicalPrice) := by
  have hgd : (calculateVWAP l).getD i 0
      = (((l.take (i + 1)).map (fun d => typicalPrice d * d.volume)).sum)
        / (((l.take (i + 1)).map PriceBar.volume).sum) := by
    unfold calculateVWAP
    rw [vwapAux_getD l 0 0 i hi]
    congr 1 <;> ring
  have hne : l.take (i + 1) ≠ [] := by
    cases l with
    | nil => simp at hi
    | cons a r => simp [List.take_cons]
  have hvt : ∀ d ∈ l.take (i + 1), 0 < d.volume :=
    fun d hd => hv d (List.take_subset (i + 1) l hd)
  rw [hgd]
  constructor
  · apply le_weighted_mean _ hne hvt
    intro d hd
    exact listMin_le (List.mem_map_of_mem typicalPrice hd)
  · apply weighted_mean_le _ hne hvt
    intro d hd
    exact le_listMax (List.mem_map_of_mem typicalPrice hd)

/-- C8 witness: the vwap boundedness theorem at index 1 of a concrete two-bar
series with positive volumes. -/
theorem vwap_between_min_max_typical_witness :
    listMin ((([⟨0, 100, 110, 90, 100, 2⟩, ⟨1, 104, 112, 96, 108, 3⟩] :
        List PriceBar).take 2).map typicalPrice)
      ≤ (calculateVWAP [⟨0, 100, 110, 90, 100, 2⟩, ⟨1, 104, 112, 96, 108, 3⟩]).getD 1 0 ∧
    (calculateVWAP [⟨0, 100, 110, 90, 100, 2⟩, ⟨1, 104, 112, 96, 108, 3⟩]).getD 1 0
      ≤ listMax ((([⟨0, 100, 110, 90, 100, 2⟩, ⟨1, 104, 112, 96, 108, 3⟩] :
        List PriceBar).take 2).map typicalPrice) :=
  vwap_between_min_max_typical _
    (by intro d hd; simp at hd; rcases hd with rfl | rfl <;> norm_num)
    1 (by norm_num)
